import Mathlib

/-!
Verification of the theory-markup parser and quiz state machine of the
dsa-study-app repository.

The embedded code comes from two source files:
* `src/components/TheorySection.tsx` — block splitter
  (`splitPreservingCodeFences`), block classifier (`parseTheoryBlocks`),
  inline formatter (`formatInline`) and table parser (`TheoryTable`);
* `src/pages/FlashCardsPage.tsx` — quiz state (`handleSelect`,
  `handleNext`, `reset`, `shuffle`).

Strings are modelled by Lean `String` (a wrapped `List Char`).  The
JavaScript string primitives used by the source (`split`, `trim`,
`startsWith`, `includes`, anchored regular-expression replaces) are given
executable structural definitions over `List Char`, because the built-in
`String.splitOn` and friends do not reduce inside the kernel.
-/

namespace DsaStudy

/-! ## String helpers -/

theorem strExt {a b : String} (h : a.data = b.data) : a = b := by
  cases a; cases b; exact congrArg String.mk h

theorem strDataAppend (a b : String) : (a ++ b).data = a.data ++ b.data := by
  cases a; cases b; rfl

theorem strMkData (s : String) : String.mk s.data = s := by
  cases s; rfl

theorem strAppendAssoc (a b c : String) : a ++ b ++ c = a ++ (b ++ c) := by
  apply strExt; simp [strDataAppend]

theorem strEmptyAppend (a : String) : "" ++ a = a := by
  apply strExt; simp [strDataAppend]

theorem strAppendEmpty (a : String) : a ++ "" = a := by
  apply strExt; simp [strDataAppend]

theorem strEqEmptyIffData (a : String) : a = "" ↔ a.data = [] := by
  constructor
  · intro h; rw [h]
  · intro h; apply strExt; rw [h]

theorem strAppendEqEmpty {a b : String} (h : a ++ b = "") : a = "" ∧ b = "" := by
  rw [strEqEmptyIffData] at h
  rw [strDataAppend] at h
  rcases List.append_eq_nil.mp h with ⟨h1, h2⟩
  exact ⟨(strEqEmptyIffData a).mpr h1, (strEqEmptyIffData b).mpr h2⟩

/-- Model of JavaScript `s.startsWith(pre)`. -/
def jsStartsWith (s pre : String) : Bool :=
  pre.data.isPrefixOf s.data

/-- Does `needle` occur as a contiguous run inside `hay`? -/
def listInfixCheck (needle : List Char) : List Char → Bool
  | [] => needle.isPrefixOf []
  | c :: cs => needle.isPrefixOf (c :: cs) || listInfixCheck needle cs

/-- Model of JavaScript `s.includes(sub)`. -/
def jsIncludes (s sub : String) : Bool :=
  listInfixCheck sub.data s.data

/-- Accumulating worker for `splitChar`; `acc` holds the characters of the
current piece in reverse order. -/
def splitCharAux (sep : Char) : List Char → List Char → List String
  | [], acc => [String.mk acc.reverse]
  | c :: cs, acc =>
    if c = sep then String.mk acc.reverse :: splitCharAux sep cs []
    else splitCharAux sep cs (c :: acc)

/-- Model of JavaScript `s.split(sep)` for a one-character separator:
empty pieces are kept, and the empty string splits to `[""]`. -/
def splitChar (sep : Char) (s : String) : List String :=
  splitCharAux sep s.data []

/-- `text.split('\n')` from the source. -/
def linesOf (s : String) : List String :=
  splitChar '\n' s

/-- Join a list of strings with single newlines; inverse of `linesOf`. -/
def joinLines : List String → String
  | [] => ""
  | [l] => l
  | l :: ls => l ++ "\n" ++ joinLines ls

/-! ### Lemmas about lines -/

theorem splitCharAux_ne_nil (sep : Char) (cs acc : List Char) :
    splitCharAux sep cs acc ≠ [] := by
  induction cs generalizing acc with
  | nil => simp [splitCharAux]
  | cons c cs ih =>
    simp only [splitCharAux]
    by_cases h : c = sep <;> simp [h, ih]

theorem linesOf_ne_nil (s : String) : linesOf s ≠ [] :=
  splitCharAux_ne_nil '\n' s.data []

theorem splitCharAux_append_sep (sep : Char) (xs : List Char) :
    ∀ (acc ys : List Char),
      splitCharAux sep (xs ++ sep :: ys) acc =
        splitCharAux sep xs acc ++ splitCharAux sep ys [] := by
  induction xs with
  | nil => intro acc ys; simp [splitCharAux]
  | cons c cs ih =>
    intro acc ys
    simp only [List.cons_append, splitCharAux]
    by_cases h : c = sep <;> simp [h, ih]

/-- Splitting a string of the form `a ++ "\n" ++ b` on newlines splits the
two halves independently. -/
theorem linesOf_append_newline (a b : String) :
    linesOf (a ++ "\n" ++ b) = linesOf a ++ linesOf b := by
  have hd : (a ++ "\n" ++ b).data = a.data ++ '\n' :: b.data := by
    simp [strDataAppend]
  simp only [linesOf, splitChar, hd]
  exact splitCharAux_append_sep '\n' a.data [] b.data

theorem splitCharAux_no_sep (sep : Char) (cs : List Char) :
    ∀ acc, (∀ c ∈ cs, c ≠ sep) →
      splitCharAux sep cs acc = [String.mk (acc.reverse ++ cs)] := by
  induction cs with
  | nil => intro acc _; simp [splitCharAux]
  | cons c cs ih =>
    intro acc h
    have hc : c ≠ sep := h c (by simp)
    simp only [splitCharAux, if_neg hc]
    rw [ih (c :: acc) (fun x hx => h x (by simp [hx]))]
    simp

/-- A newline-free string is a single line. -/
theorem linesOf_no_newline (s : String) (h : ∀ c ∈ s.data, c ≠ '\n') :
    linesOf s = [s] := by
  simp only [linesOf, splitChar]
  rw [splitCharAux_no_sep '\n' s.data [] h]
  simp [strMkData]

theorem splitCharAux_mem_no_sep (sep : Char) (cs : List Char) :
    ∀ acc l, (∀ c ∈ acc, c ≠ sep) → l ∈ splitCharAux sep cs acc →
      ∀ c ∈ l.data, c ≠ sep := by
  induction cs with
  | nil =>
    intro acc l hacc hl
    simp [splitCharAux] at hl
    subst hl
    intro c hc
    exact hacc c (by simpa using hc)
  | cons c cs ih =>
    intro acc l hacc hl
    by_cases h : c = sep
    · simp [splitCharAux, h] at hl
      rcases hl with hl | hl
      · subst hl; intro x hx; exact hacc x (by simpa using hx)
      · exact ih [] l (by simp) hl
    · simp [splitCharAux, h] at hl
      exact ih (c :: acc) l
        (by intro x hx; rcases List.mem_cons.mp hx with hx | hx
            · subst hx; exact h
            · exact hacc x hx) hl

/-- Every element of `linesOf s` is newline-free. -/
theorem linesOf_mem_no_newline (s : String) :
    ∀ l ∈ linesOf s, ∀ c ∈ l.data, c ≠ '\n' := by
  intro l hl
  exact splitCharAux_mem_no_sep '\n' s.data [] l (by simp) hl

theorem joinLines_cons_ne (l : String) (ls : List String) (h : ls ≠ []) :
    joinLines (l :: ls) = l ++ "\n" ++ joinLines ls := by
  cases ls with
  | nil => exact absurd rfl h
  | cons x xs => rfl

theorem joinLines_splitCharAux (cs : List Char) :
    ∀ acc, joinLines (splitCharAux '\n' cs acc) = String.mk (acc.reverse ++ cs) := by
  induction cs with
  | nil => intro acc; simp [splitCharAux, joinLines]
  | cons c cs ih =>
    intro acc
    by_cases h : c = '\n'
    · subst h
      have hstep : splitCharAux '\n' ('\n' :: cs) acc =
          String.mk acc.reverse :: splitCharAux '\n' cs [] := by
        simp [splitCharAux]
      rw [hstep, joinLines_cons_ne _ _ (splitCharAux_ne_nil '\n' cs []), ih []]
      apply strExt
      simp [strDataAppend]
    · simp only [splitCharAux, if_neg h]
      rw [ih (c :: acc)]
      simp

/-- Round trip: joining the newline-split pieces gives back the string. -/
theorem joinLines_linesOf (s : String) : joinLines (linesOf s) = s := by
  simpa [linesOf, splitChar, strMkData] using joinLines_splitCharAux s.data []

/-! ## Block splitter (`splitPreservingCodeFences`)

Source (`TheorySection.tsx`):

```
function splitPreservingCodeFences(text: string): string[] {
  const blocks: string[] = [];
  let current = '';
  let inCode = false;
  for (const line of text.split('\n')) {
    if (line.startsWith('```')) inCode = !inCode;
    if (!inCode && current.length > 0 && line === '') {
      blocks.push(current);
      current = '';
    } else {
      current += (current ? '\n' : '') + line;
    }
  }
  if (current) blocks.push(current);
  return blocks;
}
```

JavaScript string truthiness (`current ? … : …`, `if (current)`,
`current.length > 0`) is rendered as `current ≠ ""`. -/

/-- `if (line.startsWith('```')) inCode = !inCode;` — the fence flag after
seeing `line`. -/
def nextFence (inCode : Bool) (line : String) : Bool :=
  if jsStartsWith line "```" then !inCode else inCode

def splitLoop : List String → String → Bool → List String
  | [], current, _ => if current = "" then [] else [current]
  | line :: rest, current, inCode =>
    if nextFence inCode line = false ∧ current ≠ "" ∧ line = "" then
      current :: splitLoop rest "" (nextFence inCode line)
    else
      splitLoop rest (current ++ (if current = "" then "" else "\n") ++ line)
        (nextFence inCode line)

def splitPreservingCodeFences (text : String) : List String :=
  splitLoop (linesOf text) "" false

/-- The out-of-fence blank lines that the splitter consumes: drop every
empty line at a position where the (already toggled) fence flag is off. -/
def dropBlankLinesOutsideFences : List String → Bool → List String
  | [], _ => []
  | line :: rest, inCode =>
    if nextFence inCode line = false ∧ line = "" then
      dropBlankLinesOutsideFences rest (nextFence inCode line)
    else line :: dropBlankLinesOutsideFences rest (nextFence inCode line)

/-- Modelled from the spec: the undo operation of the round-trip claim,
"concatenating the blocks with the blank-line separators" — blocks are
rejoined with one blank line (two newlines) between consecutive blocks. -/
def specUndoSplit : List String → String
  | [] => ""
  | [b] => b
  | b :: bs => b ++ "\n\n" ++ specUndoSplit bs

theorem jsStartsWith_empty_fence : jsStartsWith "" "```" = false := by decide

theorem nextFence_blank (b : Bool) : nextFence b "" = b := by
  simp [nextFence, jsStartsWith_empty_fence]

theorem linesOf_empty : linesOf "" = [""] := rfl

/-- Core accounting lemma for the splitter: the lines of the produced
blocks are exactly the pending accumulator lines followed by the input
lines with out-of-fence blank lines removed. -/
theorem splitLoop_lines (lines : List String) :
    ∀ (current : String) (inCode : Bool),
      (∀ l ∈ lines, ∀ c ∈ l.data, c ≠ '\n') →
      (inCode = true → current ≠ "") →
      (splitLoop lines current inCode).flatMap linesOf =
        (if current = "" then [] else linesOf current) ++
          dropBlankLinesOutsideFences lines inCode := by
  induction lines with
  | nil =>
    intro current inCode _ _
    by_cases hc : current = "" <;>
      simp [splitLoop, dropBlankLinesOutsideFences, hc]
  | cons line rest ih =>
    intro current inCode hNl hInv
    have hNlLine : ∀ c ∈ line.data, c ≠ '\n' := hNl line (by simp)
    have hNlRest : ∀ l ∈ rest, ∀ c ∈ l.data, c ≠ '\n' :=
      fun l hl => hNl l (by simp [hl])
    by_cases hline : line = ""
    · subst hline
      cases hcode : inCode
      · by_cases hc : current = ""
        · have hstep : splitLoop ("" :: rest) current false = splitLoop rest "" false := by
            simp [splitLoop, nextFence_blank, hc, strEmptyAppend, strAppendEmpty]
          have hdrop : dropBlankLinesOutsideFences ("" :: rest) false =
              dropBlankLinesOutsideFences rest false := by
            simp [dropBlankLinesOutsideFences, nextFence_blank]
          rw [hstep, hdrop, ih "" false hNlRest (by simp)]
          simp [hc]
        · have hstep : splitLoop ("" :: rest) current false =
              current :: splitLoop rest "" false := by
            simp [splitLoop, nextFence_blank, hc]
          have hdrop : dropBlankLinesOutsideFences ("" :: rest) false =
              dropBlankLinesOutsideFences rest false := by
            simp [dropBlankLinesOutsideFences, nextFence_blank]
          rw [hstep, hdrop]
          simp only [List.flatMap_cons]
          rw [ih "" false hNlRest (by simp)]
          simp [hc]
      · have hc : current ≠ "" := hInv hcode
        have hstep : splitLoop ("" :: rest) current true =
            splitLoop rest (current ++ "\n") true := by
          simp [splitLoop, nextFence_blank, hc, strAppendEmpty]
        have hdrop : dropBlankLinesOutsideFences ("" :: rest) true =
            "" :: dropBlankLinesOutsideFences rest true := by
          simp [dropBlankLinesOutsideFences, nextFence_blank]
        have hne : current ++ "\n" ≠ "" := by
          intro h; exact hc (strAppendEqEmpty h).1
        have hlines : linesOf (current ++ "\n") = linesOf current ++ [""] := by
          have := linesOf_append_newline current ""
          rwa [strAppendEmpty, linesOf_empty] at this
        rw [hstep, hdrop, ih _ true hNlRest (fun _ => hne)]
        rw [if_neg hne, if_neg hc, hlines]
        simp
    · have hkeepSplit : splitLoop (line :: rest) current inCode =
          splitLoop rest (current ++ (if current = "" then "" else "\n") ++ line)
            (nextFence inCode line) := by
        rw [splitLoop, if_neg (fun h => hline h.2.2)]
      have hkeepDrop : dropBlankLinesOutsideFences (line :: rest) inCode =
          line :: dropBlankLinesOutsideFences rest (nextFence inCode line) := by
        rw [dropBlankLinesOutsideFences, if_neg (fun h => hline h.2)]
      rw [hkeepSplit, hkeepDrop]
      by_cases hc : current = ""
      · have hcur : current ++ (if current = "" then "" else "\n") ++ line = line := by
          rw [if_pos hc, hc, strEmptyAppend, strEmptyAppend]
        rw [hcur, ih line _ hNlRest (fun _ => hline)]
        rw [if_neg hline, if_pos hc, linesOf_no_newline line hNlLine]
        simp
      · have hcur : current ++ (if current = "" then "" else "\n") ++ line =
            current ++ "\n" ++ line := by rw [if_neg hc]
        have hne : current ++ "\n" ++ line ≠ "" := by
          intro h
          exact hc (strAppendEqEmpty (strAppendEqEmpty h).1).1
        rw [hcur, ih _ _ hNlRest (fun _ => hne)]
        rw [if_neg hne, if_neg hc]
        rw [linesOf_append_newline, linesOf_no_newline line hNlLine]
        simp

/-- Claim C1 (counterexample): the splitter round trip fails.  On
`"a\n\n\nb"` the splitter returns `["a", "b"]`, rejoining the blocks with
blank-line separators gives `"a\n\nb" ≠ "a\n\n\nb"`, and indeed
`"a\n\nb"` and `"a\n\n\nb"` split to the same block list, so no undo
operation whatsoever can reconstruct the input: the splitter does lose
input text (the exact blank-line structure). -/
theorem splitter_round_trip_counterexample :
    splitPreservingCodeFences "a\n\n\nb" = ["a", "b"] ∧
    specUndoSplit (splitPreservingCodeFences "a\n\n\nb") ≠ "a\n\n\nb" ∧
    splitPreservingCodeFences "a\n\nb" = splitPreservingCodeFences "a\n\n\nb" := by
  decide

/-- Claim C1 (amended): the splitter loses exactly the blank lines outside
code fences and nothing else — the concatenation of the lines of all
produced blocks equals the input's line sequence with out-of-fence blank
lines removed.  The round trip as originally claimed fails because the
dropped blank-line structure (consecutive, leading and trailing blank
lines) is not recoverable. -/
theorem splitter_preserves_nonblank_content (text : String) :
    (splitPreservingCodeFences text).flatMap linesOf =
      dropBlankLinesOutsideFences (linesOf text) false := by
  have h := splitLoop_lines (linesOf text) "" false
    (linesOf_mem_no_newline text) (by simp)
  simpa [splitPreservingCodeFences] using h

/-- Claim C9: every block produced by the splitter is a non-empty string
(blocks are pushed only when the accumulator is non-empty). -/
theorem splitter_no_empty_blocks (text : String) (b : String)
    (hb : b ∈ splitPreservingCodeFences text) : b ≠ "" := by
  suffices h : ∀ (lines : List String) (current : String) (inCode : Bool),
      b ∈ splitLoop lines current inCode → b ≠ "" from
    h (linesOf text) "" false hb
  intro lines
  induction lines with
  | nil =>
    intro current inCode hmem
    by_cases hc : current = ""
    · simp [splitLoop, hc] at hmem
    · simp [splitLoop, hc] at hmem
      rw [hmem]; exact hc
  | cons line rest ih =>
    intro current inCode hmem
    rw [splitLoop] at hmem
    by_cases hcond : nextFence inCode line = false ∧ current ≠ "" ∧ line = ""
    · rw [if_pos hcond] at hmem
      rcases List.mem_cons.mp hmem with h | h
      · rw [h]; exact hcond.2.1
      · exact ih _ _ h
    · rw [if_neg hcond] at hmem
      exact ih _ _ hmem

/-- Witness for C9 at a concrete input. -/
theorem splitter_no_empty_blocks_witness :
    ("a" : String) ∈ splitPreservingCodeFences "a\n\nb" ∧ ("a" : String) ≠ "" :=
  ⟨by decide, splitter_no_empty_blocks "a\n\nb" "a" (by decide)⟩

/-! ## Block classifier (`parseTheoryBlocks`)

The classifier maps each raw block to one of eight variants, trying the
patterns in source order.  The regular expressions of the source are
modelled by explicit character scans:
* `/^\d+\.\s/`             → `ordStart`
* `/\n(?=\d+\.\s)/` split  → `splitOrdered`
* `/\n\d+\.\s/` test       → `containsNlOrd`
* `/^\d+\.\s/` replace     → `stripOrdMark`
* `/^- /` replace          → `stripDashMark`
* `/^```\w*\n?/` replace   → `stripOpenFence`
* `/\n?```$/` replace      → `stripCloseFence`
-/

/-- JavaScript `\w`: ASCII letters, digits and underscore. -/
def isWordChar (c : Char) : Bool :=
  (('a' ≤ c && c ≤ 'z') || ('A' ≤ c && c ≤ 'Z') || ('0' ≤ c && c ≤ '9') || c = '_')

/-- JavaScript `\s` (ASCII part): space, tab, newline, carriage return,
form feed, vertical tab. -/
def isJsSpace (c : Char) : Bool :=
  (c = ' ' || c = '\t' || c = '\n' || c = '\r' || c = '\x0b' || c = '\x0c')

/-- Does the character list start with a match of `\d+\.\s`? -/
def ordStart (cs : List Char) : Bool :=
  let ds := cs.takeWhile Char.isDigit
  !ds.isEmpty &&
    (match cs.drop ds.length with
     | '.' :: c :: _ => isJsSpace c
     | _ => false)

/-- `l.replace(/^\d+\.\s/, '')`. -/
def stripOrdMark (l : String) : String :=
  if ordStart l.data then
    String.mk (l.data.drop ((l.data.takeWhile Char.isDigit).length + 2))
  else l

/-- Worker for `splitOrdered`; `acc` holds the current piece reversed. -/
def splitOrderedAux : List Char → List Char → List String
  | [], acc => [String.mk acc.reverse]
  | c :: cs, acc =>
    if c = '\n' && ordStart cs then String.mk acc.reverse :: splitOrderedAux cs []
    else splitOrderedAux cs (c :: acc)

/-- `s.split(/\n(?=\d+\.\s)/)`: split at newlines that are immediately
followed by an ordered-list marker (the newline is consumed). -/
def splitOrdered (s : String) : List String :=
  splitOrderedAux s.data []

/-- `/\n\d+\.\s/.test(s)`. -/
def containsNlOrd : List Char → Bool
  | [] => false
  | c :: cs => (c = '\n' && ordStart cs) || containsNlOrd cs

/-- `item.replace(/^- /, '')`. -/
def stripDashMark (l : String) : String :=
  if jsStartsWith l "- " then String.mk (l.data.drop 2) else l

/-- `raw.replace(/^```\w*\n?/, '')`: strip an opening fence, its
word-character language tag, and one following newline if present. -/
def stripOpenFence (raw : String) : String :=
  if jsStartsWith raw "```" then
    match (raw.data.drop 3).dropWhile isWordChar with
    | c :: r => if c = '\n' then String.mk r else String.mk (c :: r)
    | [] => String.mk []
  else raw

/-- `s.replace(/\n?```$/, '')`: strip a trailing fence, preferring to take
a preceding newline with it. -/
def stripCloseFence (s : String) : String :=
  if List.isSuffixOf "\n```".data s.data then
    String.mk (s.data.take (s.data.length - 4))
  else if List.isSuffixOf "```".data s.data then
    String.mk (s.data.take (s.data.length - 3))
  else s

/-- The `Block` union type of `TheorySection.tsx`. -/
inductive Block
  | paragraph (text : String)
  | headingList (heading : String) (items : List String) (ordered : Bool)
  | headingTable (heading : String) (tableText : String)
  | headingCode (heading : String) (code : String)
  | table (text : String)
  | code (code : String)
  | orderedList (items : List String)
  | unorderedList (items : List String)
deriving DecidableEq, Repr

/-- The classifier body of `parseTheoryBlocks` for one raw block,
with the decision branches in source order. -/
def classifyBlock (raw : String) : Block :=
  if jsStartsWith raw "|" then Block.table raw
  else if jsStartsWith raw "```" then
    Block.code (stripCloseFence (stripOpenFence raw))
  else if ordStart raw.data then
    Block.orderedList ((splitOrdered raw).map stripOrdMark)
  else if jsStartsWith raw "- " then
    Block.unorderedList ((linesOf raw).map stripDashMark)
  else if jsStartsWith raw "**" then
    if jsIncludes raw "\n```" then
      match linesOf raw with
      | [] => Block.paragraph raw
      | h :: t => Block.headingCode h (stripCloseFence (stripOpenFence (joinLines t)))
    else if jsIncludes raw "\n|" then
      match linesOf raw with
      | [] => Block.paragraph raw
      | h :: t => Block.headingTable h (joinLines t)
    else if containsNlOrd raw.data then
      match linesOf raw with
      | [] => Block.paragraph raw
      | h :: t => Block.headingList h ((splitOrdered (joinLines t)).map stripOrdMark) true
    else if jsIncludes raw "\n-" then
      match linesOf raw with
      | [] => Block.paragraph raw
      | h :: t => Block.headingList h (t.map stripDashMark) false
    else Block.paragraph raw
  else Block.paragraph raw

def parseTheoryBlocks (theory : String) : List Block :=
  (splitPreservingCodeFences theory).map classifyBlock

/-! ## Table parser (`TheoryTable`)

Source:

```
const rows = text.trim().split('\n').filter((r) => !r.match(/^\|[-|]+\|$/));
const header = rows[0].split('|').filter(Boolean).map((c) => c.trim());
const body = rows.slice(1).map((row) =>
  row.split('|').filter(Boolean).map((c) => c.trim()));
```

`rows[0]` on an empty `rows` is `undefined` in JavaScript and
`undefined.split` throws a `TypeError`; the model returns `none` for that
case and `some (header, body)` otherwise. -/

/-- JavaScript `s.trim()` (ASCII whitespace). -/
def jsTrim (s : String) : String :=
  String.mk (((s.data.dropWhile isJsSpace).reverse.dropWhile isJsSpace).reverse)

/-- `r.match(/^\|[-|]+\|$/)`: a pipe, then one or more pipes/hyphens,
then a final pipe. -/
def isSeparatorRow (r : String) : Bool :=
  match r.data with
  | '|' :: rest =>
    decide (2 ≤ rest.length) && rest.all (fun c => c = '-' || c = '|') &&
      decide (rest.getLastD ' ' = '|')
  | _ => false

/-- `row.split('|').filter(Boolean).map((c) => c.trim())`. -/
def rowCells (row : String) : List String :=
  ((splitChar '|' row).filter (fun c => !(c == ""))).map jsTrim

/-- The filtered row list of `TheoryTable`. -/
def theoryTableRows (text : String) : List String :=
  (linesOf (jsTrim text)).filter (fun r => !isSeparatorRow r)

/-- The header/body extraction of `TheoryTable`; `none` models the
`TypeError` thrown by `rows[0].split` when every line is a separator. -/
def parseTheoryTable (text : String) : Option (List String × List (List String)) :=
  match theoryTableRows text with
  | [] => none
  | h :: t => some (rowCells h, t.map rowCells)

/-! ## Inline formatter (`formatInline`)

Source:

```
return text
  .replace(/`([^`]+)`/g, '<code class="…">$1</code>')
  .replace(/\*\*([^*]+)\*\*/g, '<strong class="…">$1</strong>')
  .replace(/\*([^*]+)\*/g, '<em>$1</em>')
  .replace(/(?<!<[^>]*)(?<!["\w])O\(([^)]+)\)/g, '<span class="bigo">O($1)</span>');
```

Each global replace is modelled by a single left-to-right scan that
consumes one character per step (structural recursion), reproducing the
left-most, non-overlapping match discipline of `String.replace` with a
global regex.  The two look-behinds of the Big-O pass depend only on
(a) whether the last `<`/`>` seen in the subject so far was `<`
(`inTag`), and (b) the immediately preceding subject character (`prev`).
-/

def codeOpenTag : List Char :=
  "<code class=\"px-1.5 py-0.5 rounded bg-slate-100 text-slate-700 text-sm font-mono\">".data

def codeCloseTag : List Char := "</code>".data

def strongOpenTag : List Char := "<strong class=\"text-slate-700 font-semibold\">".data

def strongCloseTag : List Char := "</strong>".data

def emOpenTag : List Char := "<em>".data

def emCloseTag : List Char := "</em>".data

def bigOOpenTag : List Char := "<span class=\"bigo\">O(".data

def bigOCloseTag : List Char := ")</span>".data

/-- Pass 1, `/`([^`]+)`/g`: `none` = outside any span, `some acc` = after
an opening backtick with `acc` the reversed span content so far. -/
def codeSpanAux : List Char → Option (List Char) → List Char
  | [], none => []
  | [], some acc => '`' :: acc.reverse
  | c :: rest, none =>
    if c = '`' then codeSpanAux rest (some []) else c :: codeSpanAux rest none
  | c :: rest, some acc =>
    if c = '`' then
      match acc with
      | [] => '`' :: codeSpanAux rest (some [])
      | _ => codeOpenTag ++ acc.reverse ++ codeCloseTag ++ codeSpanAux rest none
    else codeSpanAux rest (some (c :: acc))

/-- States of the bold pass `/\*\*([^*]+)\*\*/g`. -/
inductive BoldSt
  | outside
  | star1
  | opened (acc : List Char)
  | closing (acc : List Char)

/-- Pass 2: `star1` = one `*` seen, `opened acc` = after `**` accumulating
content, `closing acc` = after `**content*`, awaiting the second closing
star.  A failed attempt is re-emitted literally; by the shape of the
pattern no later match can start inside the re-emitted text before the
point where scanning resumes. -/
def boldAux : List Char → BoldSt → List Char
  | [], .outside => []
  | [], .star1 => ['*']
  | [], .opened acc => '*' :: '*' :: acc.reverse
  | [], .closing acc => '*' :: '*' :: acc.reverse ++ ['*']
  | c :: rest, .outside =>
    if c = '*' then boldAux rest .star1 else c :: boldAux rest .outside
  | c :: rest, .star1 =>
    if c = '*' then boldAux rest (.opened []) else '*' :: c :: boldAux rest .outside
  | c :: rest, .opened acc =>
    if c = '*' then
      match acc with
      | [] => '*' :: boldAux rest (.opened [])
      | _ => boldAux rest (.closing acc)
    else boldAux rest (.opened (c :: acc))
  | c :: rest, .closing acc =>
    if c = '*' then strongOpenTag ++ acc.reverse ++ strongCloseTag ++ boldAux rest .outside
    else '*' :: '*' :: acc.reverse ++ '*' :: c :: boldAux rest .outside

/-- Pass 3, `/\*([^*]+)\*/g` — same shape as the code-span pass. -/
def emAux : List Char → Option (List Char) → List Char
  | [], none => []
  | [], some acc => '*' :: acc.reverse
  | c :: rest, none =>
    if c = '*' then emAux rest (some []) else c :: emAux rest none
  | c :: rest, some acc =>
    if c = '*' then
      match acc with
      | [] => '*' :: emAux rest (some [])
      | _ => emOpenTag ++ acc.reverse ++ emCloseTag ++ emAux rest none
    else emAux rest (some (c :: acc))

/-- `(?<!<[^>]*)` holds at a position iff the last `<` or `>` before it is
not `<`; `updTag1` tracks that state across one subject character. -/
def updTag1 (b : Bool) (c : Char) : Bool :=
  if c = '<' then true else if c = '>' then false else b

def updTag (b : Bool) (cs : List Char) : Bool :=
  cs.foldl updTag1 b

/-- Conjunction of the two look-behinds `(?<!<[^>]*)(?<!["\w])`. -/
def lbOK (inTag : Bool) (prev : Option Char) : Bool :=
  !inTag &&
    (match prev with
     | none => true
     | some c => !(c = '\"' || isWordChar c))

/-- States of the Big-O pass. -/
inductive BigOSt
  | scan
  | sawO
  | inParen (acc : List Char)

/-- Pass 4, `/(?<!<[^>]*)(?<!["\w])O\(([^)]+)\)/g`: `sawO` = matched an
`O` whose look-behinds hold, `inParen acc` = inside `O(…` accumulating
the `[^)]+` content. -/
def bigOAux : List Char → BigOSt → Bool → Option Char → List Char
  | [], .scan, _, _ => []
  | [], .sawO, _, _ => ['O']
  | [], .inParen acc, _, _ => 'O' :: '(' :: acc.reverse
  | c :: rest, .scan, inTag, prev =>
    if c = 'O' && lbOK inTag prev then bigOAux rest .sawO inTag (some 'O')
    else c :: bigOAux rest .scan (updTag1 inTag c) (some c)
  | c :: rest, .sawO, inTag, _ =>
    if c = '(' then bigOAux rest (.inParen []) inTag (some '(')
    else 'O' :: c :: bigOAux rest .scan (updTag1 inTag c) (some c)
  | c :: rest, .inParen acc, inTag, prev =>
    if c = ')' then
      match acc with
      | [] => 'O' :: '(' :: ')' :: bigOAux rest .scan inTag (some ')')
      | _ =>
        bigOOpenTag ++ acc.reverse ++ bigOCloseTag ++
          bigOAux rest .scan (updTag inTag acc.reverse) (some ')')
    else bigOAux rest (.inParen (c :: acc)) inTag prev

def formatInline (text : String) : String :=
  String.mk
    (bigOAux
      (emAux
        (boldAux
          (codeSpanAux text.data none)
          .outside)
        none)
      .scan false none)

/-- Claim C2 (counterexample): the Big-O pass is NOT kept out of code-span
content.  On input `` `O(n)` `` the code-span replacement runs first, but
the inserted markup ends in `>` immediately before the `O`, and neither
look-behind of the Big-O regex rejects that position (`>` is not a quote
or word character, and the nearest `<` is followed by a `>`), so the
output nests a `bigo` span inside the code span — two layers of markup,
not one. -/
theorem formatInline_code_span_counterexample :
    formatInline "`O(n)`" =
      "<code class=\"px-1.5 py-0.5 rounded bg-slate-100 text-slate-700 text-sm font-mono\"><span class=\"bigo\">O(n)</span></code>" ∧
    formatInline "`O(n)`" ≠
      "<code class=\"px-1.5 py-0.5 rounded bg-slate-100 text-slate-700 text-sm font-mono\">O(n)</code>" := by
  decide

/-- Claim C2 (amended): `formatInline` does wrap a backtick span in a
code-span element (`formatInline "`x`"`), but a Big-O expression that
forms the code-span content sits directly after the inserted tag's `>`
and is wrapped a second time by the final pass: the output for
`` `O(n)` `` carries an inner `bigo` span inside the code span.  (A bare
`O(n)` gets the single Big-O span the claim expects.) -/
theorem formatInline_code_span_amended :
    formatInline "`x`" =
      "<code class=\"px-1.5 py-0.5 rounded bg-slate-100 text-slate-700 text-sm font-mono\">x</code>" ∧
    formatInline "`O(n)`" =
      "<code class=\"px-1.5 py-0.5 rounded bg-slate-100 text-slate-700 text-sm font-mono\"><span class=\"bigo\">O(n)</span></code>" ∧
    formatInline "O(n)" = "<span class=\"bigo\">O(n)</span>" := by
  decide

/-! ## Quiz state machine (`FlashCardsPage.tsx`)

The page state is the record of `useState` hooks: `cards`, `index`,
`selected`, `score`, `answered`, `categoryScores`.  The flash-card
catalog itself (`src/content/flash-cards.ts`) is static data imported by
the page and is not part of the sources; the model therefore takes the
catalog as a parameter — every property proved below holds for any
catalog. -/

inductive Category
  | bigO
  | dataStructures
  | algorithms
  | techniques
deriving DecidableEq, Repr

structure FlashCard where
  id : Nat
  category : Category
  question : String
  choices : List String
  answer : Nat
  explanation : String
deriving DecidableEq, Repr

/-- One `{ correct, total }` cell of the per-category tally map. -/
structure Tally where
  correct : Nat
  total : Nat
deriving DecidableEq, Repr

structure CategoryScores where
  bigO : Tally
  dataStructures : Tally
  algorithms : Tally
  techniques : Tally
deriving DecidableEq, Repr

/-- The initial tally map — every `{ correct: 0, total: 0 }`. -/
def zeroScores : CategoryScores :=
  ⟨⟨0, 0⟩, ⟨0, 0⟩, ⟨0, 0⟩, ⟨0, 0⟩⟩

/-- `{...prev, [card.category]: { correct: …+ (isCorrect ? 1 : 0), total: …+1 }}`. -/
def bumpCategory (cs : CategoryScores) (c : Category) (isCorrect : Bool) :
    CategoryScores :=
  match c with
  | .bigO =>
    { cs with bigO := ⟨cs.bigO.correct + (if isCorrect then 1 else 0), cs.bigO.total + 1⟩ }
  | .dataStructures =>
    { cs with dataStructures :=
        ⟨cs.dataStructures.correct + (if isCorrect then 1 else 0), cs.dataStructures.total + 1⟩ }
  | .algorithms =>
    { cs with algorithms :=
        ⟨cs.algorithms.correct + (if isCorrect then 1 else 0), cs.algorithms.total + 1⟩ }
  | .techniques =>
    { cs with techniques :=
        ⟨cs.techniques.correct + (if isCorrect then 1 else 0), cs.techniques.total + 1⟩ }

structure QuizState where
  cards : List FlashCard
  index : Nat
  selected : Option Nat
  score : Nat
  answered : Nat
  categoryScores : CategoryScores
deriving DecidableEq, Repr

/-- `handleSelect` from the source:

```
if (selected !== null || !card) return;      // card = cards[index]
setSelected(choiceIndex);
setAnswered((a) => a + 1);
const isCorrect = choiceIndex === card.answer;
if (isCorrect) setScore((s) => s + 1);
setCategoryScores((prev) => ({ ...prev, [card.category]: …}));
```
-/
def handleSelect (choiceIndex : Nat) (s : QuizState) : QuizState :=
  if s.selected ≠ none then s
  else
    match s.cards[s.index]? with
    | none => s
    | some card =>
      { s with
        selected := some choiceIndex
        answered := s.answered + 1
        score := if choiceIndex = card.answer then s.score + 1 else s.score
        categoryScores :=
          bumpCategory s.categoryScores card.category (choiceIndex == card.answer) }

/-- `handleNext`: `if (selected === null) return; setIndex(i+1); setSelected(null);` -/
def handleNext (s : QuizState) : QuizState :=
  if s.selected = none then s
  else { s with index := s.index + 1, selected := none }

inductive Action
  | selectChoice (i : Nat)
  | advance
deriving DecidableEq, Repr

def applyAction (s : QuizState) : Action → QuizState
  | .selectChoice i => handleSelect i s
  | .advance => handleNext s

def applyActions (acts : List Action) (s : QuizState) : QuizState :=
  acts.foldl applyAction s

/-- The category filter: `'all'` or one concrete category. -/
inductive CatFilter
  | all
  | only (c : Category)
deriving DecidableEq, Repr

/-- `source === 'all' ? flashCards : flashCards.filter((c) => c.category === source)`. -/
def filterPool (catalog : List FlashCard) : CatFilter → List FlashCard
  | .all => catalog
  | .only c => catalog.filter (fun card => card.category == c)

/-- `[a[i], a[j]] = [a[j], a[i]]`; when either index is out of range the
source never reaches this situation (see `jsShuffle`) and the model
leaves the list unchanged. -/
def listSwap {α : Type} (l : List α) (i j : Nat) : List α :=
  match l[i]?, l[j]? with
  | some x, some y => (l.set i y).set j x
  | _, _ => l

/-- The Fisher–Yates loop of `shuffle`: `for (let i = len-1; i > 0; i--)`
swap `a[i]` with `a[j]`, `j = Math.floor(Math.random() * (i + 1))`.
The random draw always lies in `[0, i]`, modelled as `rand i : Fin (i+1)`. -/
def fisherYatesAux {α : Type} (rand : (i : Nat) → Fin (i + 1)) :
    List α → Nat → List α
  | a, 0 => a
  | a, i + 1 => fisherYatesAux rand (listSwap a (i + 1) (rand (i + 1)).val) i

/-- `shuffle` from the source (over the copied array). -/
def jsShuffle {α : Type} (rand : (i : Nat) → Fin (i + 1)) (l : List α) : List α :=
  fisherYatesAux rand l (l.length - 1)

/-- `reset(newFilter)`: shuffle the filtered pool and zero every field. -/
def resetSession (catalog : List FlashCard) (rand : (i : Nat) → Fin (i + 1))
    (filt : CatFilter) : QuizState :=
  { cards := jsShuffle rand (filterPool catalog filt)
    index := 0
    selected := none
    score := 0
    answered := 0
    categoryScores := zeroScores }

/-! ### The shuffle is a permutation -/

theorem get_cons_set_perm {α : Type} (t : List α) :
    ∀ (m : Nat) (h : m < t.length) (x : α),
      List.Perm (t.get ⟨m, h⟩ :: t.set m x) (x :: t) := by
  induction t with
  | nil => intro m h x; exact absurd h (by simp)
  | cons b t ih =>
    intro m h x
    cases m with
    | zero =>
      simp only [List.get, List.set]
      exact List.Perm.swap x b t
    | succ k =>
      have hk : k < t.length := by simpa using h
      simp only [List.get, List.set]
      exact ((List.Perm.swap b (t.get ⟨k, hk⟩) (t.set k x)).trans
        ((ih k hk x).cons b)).trans (List.Perm.swap x b t)

theorem set_set_swap_perm {α : Type} (l : List α) :
    ∀ (i j : Nat) (x y : α), l[i]? = some x → l[j]? = some y →
      List.Perm ((l.set i y).set j x) l := by
  induction l with
  | nil => intro i j x y hx _; simp at hx
  | cons a t ih =>
    intro i j x y hx hy
    cases i with
    | zero =>
      simp only [List.getElem?_cons_zero, Option.some.injEq] at hx
      cases j with
      | zero =>
        simp only [List.getElem?_cons_zero, Option.some.injEq] at hy
        simp [List.set, ← hx]
      | succ m =>
        simp only [List.getElem?_cons_succ] at hy
        obtain ⟨hm, hy1⟩ := List.getElem?_eq_some.mp hy
        simp only [List.set]
        have hget : t.get ⟨m, hm⟩ = y := by
          rw [List.get_eq_getElem]; exact hy1
        rw [← hx, ← hget]
        exact get_cons_set_perm t m hm a
    | succ n =>
      simp only [List.getElem?_cons_succ] at hx
      cases j with
      | zero =>
        simp only [List.getElem?_cons_zero, Option.some.injEq] at hy
        obtain ⟨hn, hx1⟩ := List.getElem?_eq_some.mp hx
        simp only [List.set]
        have hget : t.get ⟨n, hn⟩ = x := by
          rw [List.get_eq_getElem]; exact hx1
        rw [← hy, ← hget]
        exact get_cons_set_perm t n hn a
      | succ m =>
        simp only [List.getElem?_cons_succ] at hy
        simp only [List.set]
        exact (ih n m x y hx hy).cons a

theorem listSwap_perm {α : Type} (l : List α) (i j : Nat) :
    List.Perm (listSwap l i j) l := by
  unfold listSwap
  cases hx : l[i]? with
  | none => exact List.Perm.refl l
  | some x =>
    cases hy : l[j]? with
    | none => exact List.Perm.refl l
    | some y => exact set_set_swap_perm l i j x y hx hy

theorem fisherYatesAux_perm {α : Type} (rand : (i : Nat) → Fin (i + 1)) :
    ∀ (i : Nat) (a : List α), List.Perm (fisherYatesAux rand a i) a := by
  intro i
  induction i with
  | zero => intro a; exact List.Perm.refl a
  | succ n ih =>
    intro a
    exact (ih (listSwap a (n + 1) (rand (n + 1)).val)).trans
      (listSwap_perm a (n + 1) (rand (n + 1)).val)

/-- The source's Fisher–Yates shuffle always returns a permutation of its
input, whatever the random draws. -/
theorem jsShuffle_perm {α : Type} (rand : (i : Nat) → Fin (i + 1)) (l : List α) :
    List.Perm (jsShuffle rand l) l :=
  fisherYatesAux_perm rand (l.length - 1) l

/-! ### Session invariants -/

/-- Sum of the per-category `total` tallies. -/
def sumTotals (cs : CategoryScores) : Nat :=
  cs.bigO.total + cs.dataStructures.total + cs.algorithms.total + cs.techniques.total

theorem sumTotals_bump (cs : CategoryScores) (c : Category) (b : Bool) :
    sumTotals (bumpCategory cs c b) = sumTotals cs + 1 := by
  cases c <;> simp [bumpCategory, sumTotals] <;> omega

/-- Inductive invariant of a quiz session. -/
def QuizInv (s : QuizState) : Prop :=
  s.score ≤ s.answered ∧
  s.answered = sumTotals s.categoryScores ∧
  s.index ≤ s.cards.length ∧
  (s.selected.isSome = true → s.index < s.cards.length) ∧
  s.answered ≤ s.index + (if s.selected.isSome then 1 else 0)

theorem quizInv_reset (catalog : List FlashCard) (rand : (i : Nat) → Fin (i + 1))
    (filt : CatFilter) : QuizInv (resetSession catalog rand filt) := by
  refine ⟨le_refl 0, rfl, Nat.zero_le _, ?_, ?_⟩ <;> simp [resetSession]

theorem quizInv_select (i : Nat) (s : QuizState) (h : QuizInv s) :
    QuizInv (handleSelect i s) := by
  obtain ⟨h1, h2, h3, h4, h5⟩ := h
  unfold handleSelect
  cases hsel : s.selected with
  | some k => simp [hsel]; exact ⟨h1, h2, h3, h4, h5⟩
  | none =>
    simp only [hsel, ne_eq, not_true_eq_false, if_false, reduceIte]
    cases hcard : s.cards[s.index]? with
    | none => exact ⟨h1, h2, h3, h4, h5⟩
    | some card =>
      have hlt : s.index < s.cards.length := (List.getElem?_eq_some.mp hcard).1
      rw [hsel] at h5
      simp only [Option.isSome_none, Bool.false_eq_true, if_false] at h5
      refine ⟨?_, ?_, ?_, ?_, ?_⟩
      · simp only
        by_cases hc : i = card.answer <;> simp [hc] <;> omega
      · simp [sumTotals_bump, h2]
      · exact h3
      · intro _; exact hlt
      · simp only [Option.isSome_some, if_true]
        omega

theorem quizInv_next (s : QuizState) (h : QuizInv s) : QuizInv (handleNext s) := by
  obtain ⟨h1, h2, h3, h4, h5⟩ := h
  unfold handleNext
  cases hsel : s.selected with
  | none => simp only [if_pos rfl]; exact ⟨h1, h2, h3, h4, h5⟩
  | some k =>
    have hlt : s.index < s.cards.length := by
      apply h4; rw [hsel]; rfl
    rw [hsel] at h5
    simp only [Option.isSome_some, if_true] at h5
    simp only [reduceCtorEq, if_false]
    refine ⟨h1, h2, ?_, ?_, ?_⟩
    · simpa using hlt
    · intro hco; simp at hco
    · simp only [Option.isSome_none, Bool.false_eq_true, if_false]
      omega

theorem quizInv_actions (acts : List Action) :
    ∀ s : QuizState, QuizInv s → QuizInv (applyActions acts s) := by
  induction acts with
  | nil => intro s h; exact h
  | cons a acts ih =>
    intro s h
    cases a with
    | selectChoice i => exact ih _ (quizInv_select i s h)
    | advance => exact ih _ (quizInv_next s h)

/-- Claim C4: after any sequence of `selectChoice`/`advance` steps from a
freshly reset session (any catalog, any random draws, any filter),
`score ≤ answered ≤ deck length` and `answered` equals the sum of the
four per-category `total` tallies.  Since every prefix of a step sequence
is itself a step sequence, this gives the invariant after every step. -/
theorem quiz_session_invariants (catalog : List FlashCard)
    (rand : (i : Nat) → Fin (i + 1)) (filt : CatFilter) (acts : List Action) :
    (applyActions acts (resetSession catalog rand filt)).score ≤
        (applyActions acts (resetSession catalog rand filt)).answered ∧
      (applyActions acts (resetSession catalog rand filt)).answered ≤
        (applyActions acts (resetSession catalog rand filt)).cards.length ∧
      (applyActions acts (resetSession catalog rand filt)).answered =
        sumTotals (applyActions acts (resetSession catalog rand filt)).categoryScores := by
  have h := quizInv_actions acts (resetSession catalog rand filt)
    (quizInv_reset catalog rand filt)
  obtain ⟨h1, h2, h3, h4, h5⟩ := h
  refine ⟨h1, ?_, h2⟩
  by_cases hsel : (applyActions acts (resetSession catalog rand filt)).selected.isSome
  · have := h4 hsel
    rw [if_pos hsel] at h5
    omega
  · rw [if_neg hsel] at h5
    omega

/-- Claim C6: `reset(filter)` makes the deck a permutation of the catalog
restricted by the filter — same length, and every card occurs exactly as
often as in the filtered catalog (for cards of the catalog: exactly once
each if the catalog has no duplicates) — and zeroes position, selection,
score, answered count and all tallies. -/
theorem reset_deck_permutation (catalog : List FlashCard)
    (rand : (i : Nat) → Fin (i + 1)) (filt : CatFilter) :
    List.Perm (resetSession catalog rand filt).cards (filterPool catalog filt) ∧
      (resetSession catalog rand filt).cards.length = (filterPool catalog filt).length ∧
      (∀ card : FlashCard,
        (resetSession catalog rand filt).cards.count card =
          (filterPool catalog filt).count card) ∧
      (resetSession catalog rand filt).index = 0 ∧
      (resetSession catalog rand filt).selected = none ∧
      (resetSession catalog rand filt).score = 0 ∧
      (resetSession catalog rand filt).answered = 0 ∧
      (resetSession catalog rand filt).categoryScores = zeroScores := by
  have hperm : List.Perm (resetSession catalog rand filt).cards
      (filterPool catalog filt) := jsShuffle_perm rand (filterPool catalog filt)
  exact ⟨hperm, hperm.length_eq, fun card => hperm.count_eq card,
    rfl, rfl, rfl, rfl, rfl⟩

/-- Claim C3 (counterexample): an out-of-range `selectChoice` is NOT a
no-op.  With one card whose two choices have correct answer 0 and nothing
selected, `selectChoice 7` records an answer (`answered` becomes 1). -/
def cardA : FlashCard :=
  { id := 0, category := Category.algorithms, question := "q",
    choices := ["a", "b"], answer := 0, explanation := "e" }

def stateAnswering : QuizState :=
  { cards := [cardA], index := 0, selected := none,
    score := 0, answered := 0, categoryScores := zeroScores }

theorem selectChoice_out_of_range_counterexample :
    handleSelect 7 stateAnswering ≠ stateAnswering ∧
    (handleSelect 7 stateAnswering).answered = 1 := by decide

/-- Claim C3 (amended): `selectChoice` is a no-op whenever a choice is
already selected (Revealed state); but an out-of-range index in the
Answering state is processed like any other choice — it is recorded as an
incorrect answer: the selection becomes that index, `answered` and the
card's category `total` increase by one, and `score` is unchanged. -/
theorem selectChoice_revealed_noop_out_of_range_scored :
    (∀ (i : Nat) (s : QuizState), s.selected ≠ none → handleSelect i s = s) ∧
    (∀ (i : Nat) (s : QuizState) (card : FlashCard),
      s.selected = none → s.cards[s.index]? = some card →
      card.answer < card.choices.length → card.choices.length ≤ i →
      handleSelect i s =
        { s with
          selected := some i
          answered := s.answered + 1
          categoryScores := bumpCategory s.categoryScores card.category false }) := by
  constructor
  · intro i s hsel
    unfold handleSelect
    rw [if_pos hsel]
  · intro i s card hsel hcard hans hlen
    have hne : i ≠ card.answer := by omega
    unfold handleSelect
    rw [if_neg (by rw [hsel]; simp), hcard]
    simp only [if_neg hne]
    have : (i == card.answer) = false := by
      rw [beq_eq_false_iff_ne]; exact hne
    rw [this]

/-- Witness for the amended C3 at concrete inputs: a Revealed-state no-op
and an out-of-range selection that is scored as incorrect. -/
def stateRevealed : QuizState :=
  { stateAnswering with selected := some 1 }

theorem selectChoice_amended_witness :
    handleSelect 0 stateRevealed = stateRevealed ∧
    handleSelect 7 stateAnswering =
      { stateAnswering with
        selected := some 7
        answered := 1
        categoryScores := bumpCategory zeroScores Category.algorithms false } :=
  ⟨selectChoice_revealed_noop_out_of_range_scored.1 0 stateRevealed (by decide),
   selectChoice_revealed_noop_out_of_range_scored.2 7 stateAnswering cardA
     rfl rfl (by decide) (by decide)⟩

/-- Claim C10: when there is no current card — empty deck or position at
or past the end — `selectChoice` is a no-op for every index. -/
theorem selectChoice_no_card_noop (i : Nat) (s : QuizState)
    (h : s.cards[s.index]? = none) : handleSelect i s = s := by
  unfold handleSelect
  by_cases hsel : s.selected ≠ none
  · rw [if_pos hsel]
  · rw [if_neg hsel, h]

/-- Witness for C10: a session whose deck is exhausted. -/
def stateDone : QuizState :=
  { cards := [cardA], index := 1, selected := none,
    score := 1, answered := 1, categoryScores := bumpCategory zeroScores Category.algorithms true }

theorem selectChoice_no_card_noop_witness :
    handleSelect 3 stateDone = stateDone :=
  selectChoice_no_card_noop 3 stateDone (by decide)

/-! ## Table parser claims -/

/-- Claim C8: the reference table parses to header `["a","b"]` and body
`[["1","2"]]` — the divider row is discarded, the first remaining line is
the header, cells are split on pipes, trimmed, and empty leading/trailing
cells dropped. -/
theorem table_parse_reference_example :
    parseTheoryTable "| a | b |\n|---|---|\n| 1 | 2 |" =
      some (["a", "b"], [["1", "2"]]) := by
  decide

/-- Claim C5 (counterexample): the table parser is NOT total.  On an
input consisting only of separator lines every row is filtered out,
`rows[0]` is `undefined`, and `rows[0].split('|')` throws a `TypeError`
(modelled by `none`). -/
theorem table_parser_counterexample :
    parseTheoryTable "|---|---|" = none ∧ theoryTableRows "|---|---|" = [] := by
  decide

/-- Claim C5 (amended): the table parser completes without error whenever
at least one line of the trimmed input is not a separator row, and it
does tolerate ragged rows, rendering for each row exactly the cells that
exist in it; but an input whose every line matches the separator pattern
leaves no rows and the header extraction fails fatally. -/
theorem table_parser_tolerates_ragged_rows :
    (∀ text : String,
      (∃ l ∈ linesOf (jsTrim text), isSeparatorRow l = false) →
      (parseTheoryTable text).isSome = true) ∧
    parseTheoryTable "| a | b |\n|---|---|\n| 1 |\n| x | y | z |" =
      some (["a", "b"], [["1"], ["x", "y", "z"]]) := by
  constructor
  · intro text hex
    obtain ⟨l, hl, hsep⟩ := hex
    have hmem : l ∈ theoryTableRows text := by
      unfold theoryTableRows
      exact List.mem_filter.mpr ⟨hl, by simp [hsep]⟩
    unfold parseTheoryTable
    cases hrows : theoryTableRows text with
    | nil => rw [hrows] at hmem; simp at hmem
    | cons h t => simp
  · decide

/-- Witness for the universally quantified half of the amended C5. -/
theorem table_parser_tolerates_ragged_rows_witness :
    (parseTheoryTable "| a |").isSome = true :=
  table_parser_tolerates_ragged_rows.1 "| a |" ⟨"| a |", by decide, by decide⟩

/-! ## Unclosed fence (claim C7) -/

theorem joinLines_merge (a b : String) (ls : List String) :
    joinLines ((a ++ "\n" ++ b) :: ls) = joinLines (a :: b :: ls) := by
  cases ls with
  | nil => rfl
  | cons x xs =>
    show a ++ "\n" ++ b ++ "\n" ++ joinLines (x :: xs) =
      a ++ "\n" ++ (b ++ "\n" ++ joinLines (x :: xs))
    simp [strAppendAssoc]

/-- Inside an open fence the splitter accumulates every remaining line
(blank or not) into the current block, provided no line toggles the fence
off. -/
theorem splitLoop_in_fence (ls : List String) :
    ∀ current : String, current ≠ "" →
      (∀ l ∈ ls, jsStartsWith l "```" = false) →
      splitLoop ls current true = [joinLines (current :: ls)] := by
  induction ls with
  | nil =>
    intro current hc _
    simp [splitLoop, hc, joinLines]
  | cons l ls ih =>
    intro current hc hl
    have hfence : nextFence true l = true := by
      simp [nextFence, hl l (by simp)]
    have hcur : current ++ (if current = "" then "" else "\n") ++ l =
        current ++ "\n" ++ l := by rw [if_neg hc]
    have hne : current ++ "\n" ++ l ≠ "" := by
      intro h
      exact hc (strAppendEqEmpty (strAppendEqEmpty h).1).1
    rw [splitLoop, hfence]
    rw [if_neg (by intro h; cases h.1)]
    rw [hcur, ih _ hne (fun x hx => hl x (by simp [hx]))]
    rw [joinLines_merge]

theorem isWordChar_ne_newline {c : Char} (h : isWordChar c = true) : c ≠ '\n' := by
  intro hc
  rw [hc] at h
  exact absurd h (by decide)

/-- Claim C7 (amended): for an input whose opening line is the fence
marker plus a word-character language tag, whose later lines never start
with the fence marker (no closing fence), and which does not end in a
stray trailing marker, the splitter captures the entire input (blank
lines included) as one raw block, and the classifier returns the `code`
variant with exactly the opening fence line stripped. -/
theorem unclosed_fence_one_block_code (tag rest : String)
    (htag : tag.data.all isWordChar = true)
    (hlines : ∀ l ∈ linesOf rest, jsStartsWith l "```" = false)
    (hend : List.isSuffixOf "```".data rest.data = false) :
    splitPreservingCodeFences ("```" ++ tag ++ "\n" ++ rest) =
      ["```" ++ tag ++ "\n" ++ rest] ∧
    parseTheoryBlocks ("```" ++ tag ++ "\n" ++ rest) = [Block.code rest] := by
  have htagNl : ∀ c ∈ tag.data, c ≠ '\n' :=
    fun c hc => isWordChar_ne_newline (List.all_eq_true.mp htag c hc)
  have hheadNl : ∀ c ∈ ("```" ++ tag).data, c ≠ '\n' := by
    intro c hc
    rw [strDataAppend] at hc
    rcases List.mem_append.mp hc with h | h
    · intro hEq; rw [hEq] at h; simp at h
    · exact htagNl c h
  have hhead : linesOf ("```" ++ tag) = ["```" ++ tag] :=
    linesOf_no_newline _ hheadNl
  have hlinesAll : linesOf ("```" ++ tag ++ "\n" ++ rest) =
      ("```" ++ tag) :: linesOf rest := by
    rw [linesOf_append_newline, hhead]
    rfl
  have hdata : ("```" ++ tag).data = "```".data ++ tag.data := strDataAppend _ _
  have hfencePre : jsStartsWith ("```" ++ tag) "```" = true := by
    unfold jsStartsWith
    rw [hdata, List.isPrefixOf_iff_prefix]
    exact List.prefix_append _ _
  have hheadNe : ("```" ++ tag) ≠ "" := by
    intro h
    rw [strEqEmptyIffData, hdata] at h
    simp at h
  -- the splitter: the first line opens the fence, everything accumulates
  have hsplit : splitPreservingCodeFences ("```" ++ tag ++ "\n" ++ rest) =
      ["```" ++ tag ++ "\n" ++ rest] := by
    unfold splitPreservingCodeFences
    rw [hlinesAll, splitLoop]
    have hf : nextFence false ("```" ++ tag) = true := by
      simp [nextFence, hfencePre]
    rw [hf]
    rw [if_neg (by intro h; cases h.1)]
    have hcur : ("" : String) ++ (if ("" : String) = "" then "" else "\n") ++
        ("```" ++ tag) = "```" ++ tag := by
      rw [if_pos rfl, strEmptyAppend, strEmptyAppend]
    rw [hcur, splitLoop_in_fence (linesOf rest) _ hheadNe hlines]
    rw [joinLines_cons_ne _ _ (linesOf_ne_nil rest), joinLines_linesOf]
  refine ⟨hsplit, ?_⟩
  -- the classifier: `code` with the opening fence line stripped
  have hdataAll : ("```" ++ tag ++ "\n" ++ rest).data =
      "```".data ++ (tag.data ++ '\n' :: rest.data) := by
    rw [strDataAppend, strDataAppend, strDataAppend]
    simp
  have hnotTable : jsStartsWith ("```" ++ tag ++ "\n" ++ rest) "|" = false := by
    unfold jsStartsWith
    rw [hdataAll]
    rfl
  have hisFence : jsStartsWith ("```" ++ tag ++ "\n" ++ rest) "```" = true := by
    unfold jsStartsWith
    rw [hdataAll, List.isPrefixOf_iff_prefix]
    exact List.prefix_append _ _
  have hopen : stripOpenFence ("```" ++ tag ++ "\n" ++ rest) = rest := by
    unfold stripOpenFence
    rw [hisFence]
    simp only [if_true, hdataAll]
    have hdrop3 : ("```".data ++ (tag.data ++ '\n' :: rest.data)).drop 3 =
        tag.data ++ '\n' :: rest.data := rfl
    rw [hdrop3]
    have hdw : (tag.data ++ '\n' :: rest.data).dropWhile isWordChar =
        '\n' :: rest.data := by
      have h1 : tag.data.dropWhile isWordChar = [] :=
        List.dropWhile_eq_nil_iff.mpr (fun x hx => List.all_eq_true.mp htag x hx)
      have h2 : isWordChar '\n' = false := by decide
      rw [List.dropWhile_append, h1]
      simp [List.dropWhile_cons, h2]
    rw [hdw]
    simp [strMkData]
  have hclose : stripCloseFence rest = rest := by
    unfold stripCloseFence
    have hnl : List.isSuffixOf "\n```".data rest.data = false := by
      cases h : List.isSuffixOf "\n```".data rest.data
      · rfl
      · exfalso
        rw [List.isSuffixOf_iff_suffix] at h
        have hsub : "```".data <:+ "\n```".data := by decide
        have : "```".data <:+ rest.data := hsub.trans h
        rw [← List.isSuffixOf_iff_suffix] at this
        rw [this] at hend
        cases hend
    rw [hnl, hend]
    simp
  unfold parseTheoryBlocks
  rw [hsplit]
  simp only [List.map_cons, List.map_nil]
  unfold classifyBlock
  rw [hnotTable, hisFence]
  simp only [Bool.false_eq_true, if_false, if_true]
  rw [hopen, hclose]

/-- Witness for the amended C7 at a concrete unclosed fence containing a
blank line. -/
theorem unclosed_fence_one_block_code_witness :
    splitPreservingCodeFences ("```" ++ "py" ++ "\n" ++ "x = 1\n\ny") =
      ["```" ++ "py" ++ "\n" ++ "x = 1\n\ny"] ∧
    parseTheoryBlocks ("```" ++ "py" ++ "\n" ++ "x = 1\n\ny") =
      [Block.code "x = 1\n\ny"] :=
  unclosed_fence_one_block_code "py" "x = 1\n\ny" (by decide) (by decide) (by decide)

/-- Claim C7 (counterexample): for the input `"```c++\nhello"` — which
begins with the fence marker and contains no closing fence — the splitter
does capture everything in one raw block, but the classifier does not
strip the whole opening fence line: the regex `/^```\w*\n?/` only
consumes word characters of the language tag, so `c++` leaves `++\n`
behind and the code is `"++\nhello"`, not `"hello"`. -/
theorem unclosed_fence_counterexample :
    splitPreservingCodeFences "```c++\nhello" = ["```c++\nhello"] ∧
    classifyBlock "```c++\nhello" = Block.code "++\nhello" ∧
    classifyBlock "```c++\nhello" ≠ Block.code "hello" := by
  decide

end DsaStudy
